import Mathlib

/-!
Verification development for the d6tstack combine-and-load core.

The repository ships a notebook (`examples-sql.ipynb`) exercising
`d6tstack.combine_csv.CombinerCSV` (schema reconciliation and combined
loading of many CSV files into SQL) and `d6tstack.utils.pd_to_psql` /
`pd_to_mysql` (fast bulk-copy loading of a dataframe).  The library code
implementing those entry points is not part of the sources at hand, so the
operations below are modelled from the specification of the system
(schema reconciler, chunked transform pipeline, bulk load sink, job
orchestrator) and the notebook's observable usage.
-/

namespace D6t

/-- Column names are plain strings. -/
abbrev ColName := String

/-- A cell value; `none` is the null sentinel used to fill columns a
source file does not have. -/
abbrev Value := Option String

/-- Modelled from the spec: a `FileDescriptor` is the result of the Column
Inventory scan of one input file — its path, its column names in file
order, and its data rows (each row aligned 1:1 with the file's columns). -/
structure FileDescriptor where
  path : String
  cols : List ColName
  rows : List (List Value)
deriving DecidableEq, Repr

/-- Keep the first occurrence of every element, dropping later
duplicates.  This realises "union of all files' columns, ordered by
first appearance" once applied to the concatenation of the files'
column lists. -/
def dedupFirst : List ColName → List ColName
  | [] => []
  | c :: cs => c :: (dedupFirst cs).filter (fun x => x ≠ c)

/-- Modelled from the spec: the `union` reconciliation policy of the
Schema Reconciler (`CombinerCSV`, implementation not in the sources) —
canonical columns are the union of all files' columns, ordered by first
appearance across files in the given file order. -/
def unionCols (files : List FileDescriptor) : List ColName :=
  dedupFirst (files.map (·.cols)).flatten

/-- Value of column `c` in a row described by `cols` (first matching
column wins); the null sentinel when the file has no such column. -/
def colValue : List ColName → List Value → ColName → Value
  | [], _, _ => none
  | _ :: _, [], _ => none
  | c' :: cols, v :: vs, c => if c' = c then v else colValue cols vs c

/-- Modelled from the spec: the per-file `ColumnPlan` applied to one row —
reorder the row to canonical column order, filling canonical columns the
file lacks with the null sentinel. -/
def alignRow (canon : List ColName) (cols : List ColName) (row : List Value) : List Value :=
  canon.map (colValue cols row)

/-! ### Basic lemmas about `dedupFirst`, `unionCols`, `colValue` -/

theorem mem_dedupFirst {x : ColName} : ∀ {l : List ColName}, x ∈ dedupFirst l ↔ x ∈ l := by
  intro l
  induction l with
  | nil => simp [dedupFirst]
  | cons c cs ih =>
    simp only [dedupFirst, List.mem_cons, List.mem_filter, ih]
    constructor
    · rintro (rfl | ⟨h, _⟩)
      · exact .inl rfl
      · exact .inr h
    · rintro (rfl | h)
      · exact .inl rfl
      · by_cases hxc : x = c
        · exact .inl hxc
        · exact .inr ⟨h, by simpa using hxc⟩

theorem nodup_dedupFirst : ∀ (l : List ColName), (dedupFirst l).Nodup := by
  intro l
  induction l with
  | nil => simp [dedupFirst]
  | cons c cs ih =>
    rw [dedupFirst]
    refine List.nodup_cons.2 ⟨?_, ih.filter _⟩
    intro hmem
    rcases List.mem_filter.1 hmem with ⟨_, hne⟩
    simp at hne

theorem colValue_not_mem {c : ColName} :
    ∀ {cols : List ColName} {row : List Value}, c ∉ cols → colValue cols row c = none := by
  intro cols
  induction cols with
  | nil => intro row _; cases row <;> rfl
  | cons c' cs ih =>
    intro row h
    cases row with
    | nil => rfl
    | cons v vs =>
      have hne : c' ≠ c := fun he => h (he ▸ List.mem_cons_self _ _)
      simp only [colValue, if_neg hne]
      exact ih (fun hc => h (List.mem_cons_of_mem _ hc))

theorem colValue_map {c : ColName} {g : ColName → Value} :
    ∀ {canon : List ColName}, canon.Nodup → c ∈ canon →
      colValue canon (canon.map g) c = g c := by
  intro canon
  induction canon with
  | nil => intro _ h; cases h
  | cons c0 cs ih =>
    intro hnd hmem
    simp only [List.map_cons, colValue]
    by_cases h0 : c0 = c
    · simp [h0]
    · rw [if_neg h0]
      have hmem' : c ∈ cs := by
        rcases List.mem_cons.1 hmem with h | h
        · exact absurd h.symm h0
        · exact h
      exact ih (List.nodup_cons.1 hnd).2 hmem'

theorem dedupFirst_append_singleton {x : ColName} :
    ∀ (l : List ColName),
      dedupFirst (l ++ [x]) = dedupFirst l ++ if x ∈ l then [] else [x] := by
  intro l
  induction l with
  | nil => simp [dedupFirst]
  | cons c cs ih =>
    have hstep : dedupFirst ((c :: cs) ++ [x])
        = c :: ((dedupFirst cs).filter (fun y => y ≠ c)
            ++ ((if x ∈ cs then [] else [x]).filter (fun y => y ≠ c))) := by
      simp only [List.cons_append, dedupFirst, List.append_eq, ih, List.filter_append]
    rw [hstep]
    by_cases hcs : x ∈ cs
    · simp [hcs, dedupFirst]
    · by_cases hxc : x = c
      · subst hxc
        simp [hcs, dedupFirst, List.filter_cons]
      · simp [hcs, hxc, dedupFirst, List.filter_cons]

theorem dedupFirst_append_mem {x : ColName} {l : List ColName} (hx : x ∈ l) :
    dedupFirst (l ++ [x]) = dedupFirst l := by
  rw [dedupFirst_append_singleton, if_pos hx, List.append_nil]

theorem dedupFirst_append_subset :
    ∀ (m l : List ColName), (∀ x ∈ m, x ∈ l) → dedupFirst (l ++ m) = dedupFirst l := by
  intro m
  induction m with
  | nil => intro l _; simp
  | cons x m' ih =>
    intro l h
    have hx : x ∈ l := h x (List.mem_cons_self _ _)
    have step : l ++ x :: m' = (l ++ [x]) ++ m' := by simp
    rw [step, ih (l ++ [x]) (fun y hy => List.mem_append_left _ (h y (List.mem_cons_of_mem _ hy))),
      dedupFirst_append_mem hx]

theorem dedupFirst_eq_self : ∀ {l : List ColName}, l.Nodup → dedupFirst l = l := by
  intro l
  induction l with
  | nil => intro _; rfl
  | cons c cs ih =>
    intro hnd
    rcases List.nodup_cons.1 hnd with ⟨hc, hcs⟩
    rw [dedupFirst, ih hcs, List.filter_eq_self.2]
    intro a ha
    simp only [decide_eq_true_eq]
    exact fun he => hc (he ▸ ha)

theorem mem_unionCols {c : ColName} {files : List FileDescriptor} :
    c ∈ unionCols files ↔ ∃ f ∈ files, c ∈ f.cols := by
  simp only [unionCols, mem_dedupFirst, List.mem_flatten, List.mem_map]
  constructor
  · rintro ⟨l, ⟨f, hf, rfl⟩, hc⟩
    exact ⟨f, hf, hc⟩
  · rintro ⟨f, hf, hc⟩
    exact ⟨f.cols, ⟨f, hf, rfl⟩, hc⟩

theorem nodup_unionCols (files : List FileDescriptor) : (unionCols files).Nodup :=
  nodup_dedupFirst _

/-- If `c` is a real column of the row's file, the looked-up value is a
real (non-null) value whenever the row itself holds no nulls. -/
theorem colValue_isSome {c : ColName} :
    ∀ {cols : List ColName} {row : List Value}, c ∈ cols →
      row.length = cols.length → (∀ v ∈ row, v.isSome) →
      (colValue cols row c).isSome := by
  intro cols
  induction cols with
  | nil => intro row h; cases h
  | cons c' cs ih =>
    intro row hmem hlen hsome
    cases row with
    | nil => simp at hlen
    | cons v vs =>
      by_cases hc : c' = c
      · simpa [colValue, hc] using hsome v (List.mem_cons_self _ _)
      · have hmem' : c ∈ cs := by
          rcases List.mem_cons.1 hmem with h | h
          · exact absurd h.symm hc
          · exact h
        simp only [colValue, if_neg hc]
        exact ih hmem' (by simpa using hlen) (fun v hv => hsome v (List.mem_cons_of_mem _ hv))

/-! ### Errors and schema diffs -/

/-- Modelled from the spec: the per-file deviation recorded by the
`exact` policy when a file's columns diverge from the reference —
extra columns, missing columns, and whether the same columns appear in a
different order. -/
structure FileDiff where
  path : String
  extraCols : List ColName
  missingCols : List ColName
  outOfOrder : Bool
deriving DecidableEq, Repr

/-- Modelled from the spec: the error taxonomy of the core
(`SchemaMismatchError`, `TableExistsError`, `IncompatibleTableError`,
`TransformError` with file and chunk index). -/
inductive LoadError where
  | schemaMismatch (diffs : List FileDiff)
  | tableExists
  | incompatibleTable
  | transformError (path : String) (chunkIdx : Nat)
deriving DecidableEq, Repr

/-- The deviation of one file from the reference column list. -/
def fileDiff (ref : List ColName) (f : FileDescriptor) : FileDiff :=
  { path := f.path
    extraCols := f.cols.filter (fun c => ¬ ref.contains c)
    missingCols := ref.filter (fun c => ¬ f.cols.contains c)
    outOfOrder :=
      (f.cols.filter (fun c => ¬ ref.contains c)).isEmpty &&
      (ref.filter (fun c => ¬ f.cols.contains c)).isEmpty &&
      (f.cols ≠ ref) }

/-- The full per-file diff reported on an `exact` policy violation: one
`FileDiff` for every file deviating from the first file's columns. -/
def mismatchDiffs : List FileDescriptor → List FileDiff
  | [] => []
  | f :: fs => ((f :: fs).filter (fun g => g.cols ≠ f.cols)).map (fileDiff f.cols)

/-- Modelled from the spec: the `exact` reconciliation policy — all files
must expose identical column sets and order; any divergence fails with a
`SchemaMismatchError` listing every deviating file's deviation, before
any other work is attempted. -/
def reconcileExact (files : List FileDescriptor) : Except LoadError (List ColName) :=
  match files with
  | [] => .ok []
  | f :: fs =>
    if fs.all (fun g => g.cols = f.cols) then
      .ok f.cols
    else
      .error (.schemaMismatch (mismatchDiffs (f :: fs)))

/-! ### Chunked transform pipeline -/

/-- Worker for `chunksOf`: `cur` is the current chunk reversed, `k` the
remaining capacity of the current chunk. -/
def chunksGo (n : Nat) : List α → List α → Nat → List (List α)
  | [], cur, _ => if cur.isEmpty then [] else [cur.reverse]
  | x :: xs, cur, 0 => cur.reverse :: chunksGo n xs [x] n
  | x :: xs, cur, k + 1 => chunksGo n xs (x :: cur) k

/-- Split a list into chunks of `n + 1` elements each (the last chunk may
be shorter); every positive chunk size is `n + 1` for some `n`. -/
def chunksOf (n : Nat) : List α → List (List α)
  | [] => []
  | x :: xs => chunksGo n xs [x] n

/-- A user transform receives a whole chunk (list of canonical-aligned
rows) and returns the transformed chunk, or `none` when it raises. -/
abbrev Transform := List (List Value) → Option (List (List Value))

/-- The transform that leaves every chunk unchanged (no user transform
configured). -/
def idTransform : Transform := fun ch => some ch

/-- Apply the transform to each chunk in order, starting at chunk index
`i`; a raising transform aborts with the failing chunk's index. -/
def transformChunks (t : Transform) : Nat → List (List (List Value)) →
    Except Nat (List (List Value))
  | _, [] => .ok []
  | i, ch :: chs =>
    match t ch with
    | none => .error i
    | some out =>
      match transformChunks t (i + 1) chs with
      | .error j => .error j
      | .ok rest => .ok (out ++ rest)

/-- Modelled from the spec: the Chunked Transform Pipeline for a single
file — align every row to the canonical schema per the file's
ColumnPlan, split into bounded chunks of `csize + 1` rows, apply the
user transform chunk by chunk; a transform failure aborts the file's
load with a `TransformError` naming the file and the chunk index, and
the file's transaction contributes no rows. -/
def processFile (canon : List ColName) (t : Transform) (csize : Nat)
    (f : FileDescriptor) : Except LoadError (List (List Value)) :=
  match transformChunks t 0 (chunksOf csize (f.rows.map (alignRow canon f.cols))) with
  | .error i => .error (.transformError f.path i)
  | .ok rows => .ok rows

/-! ### Relational store and bulk load sink -/

/-- A target table: its column schema and its committed rows. -/
structure Table where
  schema : List ColName
  rows : List (List Value)
deriving DecidableEq, Repr

/-- The relational store: an association of table names to tables. -/
abbrev Store := List (String × Table)

/-- Look a table up by name. -/
def getTable : Store → String → Option Table
  | [], _ => none
  | (m, t) :: rest, n => if m = n then some t else getTable rest n

/-- Create or overwrite the table named `n`. -/
def setTable : Store → String → Table → Store
  | [], n, t => [(n, t)]
  | (m, u) :: rest, n, t =>
    if m = n then (n, t) :: rest else (m, u) :: setTable rest n t

/-- Modelled from the spec: the table existence policies of the Bulk
Load Sink — `fail`, `replace`, `append`. -/
inductive ExistencePolicy where
  | fail
  | replace
  | append
deriving DecidableEq, Repr

/-- Outcome of one file's load: committed with a row count, or failed
with the error; a failed file's transaction is rolled back, so it
commits zero rows. -/
inductive FileOutcome where
  | committed (nrows : Nat)
  | failed (e : LoadError)
deriving DecidableEq, Repr

/-- Modelled from the spec: the Job Orchestrator's per-file loop under
`continue_on_error` — each file is processed through the pipeline and
committed in its own transaction; a file that fails contributes no rows
(rollback) while every other file's rows remain, and the report records
every file's outcome. Returns the concatenated committed rows and the
per-file report. -/
def loadFiles (canon : List ColName) (t : Transform) (csize : Nat) :
    List FileDescriptor → List (List Value) × List (String × FileOutcome)
  | [] => ([], [])
  | f :: fs =>
    let rest := loadFiles canon t csize fs
    match processFile canon t csize f with
    | .ok rs => (rs ++ rest.1, (f.path, .committed rs.length) :: rest.2)
    | .error e => (rest.1, (f.path, .failed e) :: rest.2)

/-- Modelled from the spec: `load(files, target_table, existence_policy,
chunk_size, transform)` under the `union` reconciliation policy.  The
existence policy is checked before any write: `fail` aborts with
`TableExistsError` when the table exists and zero rows are written;
`replace` drops and recreates the table with the canonical schema before
the first chunk; `append` requires the existing table's column set to
contain the canonical columns, else aborts with
`IncompatibleTableError`.  Chunk size is `csize + 1`. -/
def load (s : Store) (files : List FileDescriptor) (tbl : String)
    (pol : ExistencePolicy) (t : Transform) (csize : Nat) :
    Store × Except LoadError (List (String × FileOutcome)) :=
  let canon := unionCols files
  match pol with
  | .fail =>
    match getTable s tbl with
    | some _ => (s, .error .tableExists)
    | none =>
      let r := loadFiles canon t csize files
      (setTable s tbl ⟨canon, r.1⟩, .ok r.2)
  | .replace =>
    let r := loadFiles canon t csize files
    (setTable s tbl ⟨canon, r.1⟩, .ok r.2)
  | .append =>
    match getTable s tbl with
    | none =>
      let r := loadFiles canon t csize files
      (setTable s tbl ⟨canon, r.1⟩, .ok r.2)
    | some u =>
      if canon.all (fun c => u.schema.contains c) then
        let r := loadFiles u.schema t csize files
        (setTable s tbl ⟨u.schema, u.rows ++ r.1⟩, .ok r.2)
      else
        (s, .error .incompatibleTable)

/-- Modelled from the spec: `load` under the `exact` reconciliation
policy — reconciliation errors abort before any write occurs, leaving
the store untouched. -/
def loadExact (s : Store) (files : List FileDescriptor) (tbl : String)
    (pol : ExistencePolicy) (t : Transform) (csize : Nat) :
    Store × Except LoadError (List (String × FileOutcome)) :=
  match reconcileExact files with
  | .error e => (s, .error e)
  | .ok _ => load s files tbl pol t csize

/-! ### Diagnostics (read-only) -/

/-- Modelled from the spec: `is_all_equal(files)` — whether all files
expose identical column names and order (`CombinerCSV.is_all_equal`,
implementation not in the sources). -/
def is_all_equal : List FileDescriptor → Bool
  | [] => true
  | f :: fs => fs.all (fun g => g.cols = f.cols)

/-- Modelled from the spec: `inspect_columns(files)` — for every column
name, the files containing it (`CombinerCSV.is_column_present`,
implementation not in the sources). -/
def inspect_columns (files : List FileDescriptor) : List (ColName × List String) :=
  (unionCols files).map
    (fun c => (c, (files.filter (fun f => f.cols.contains c)).map (·.path)))

/-- The diagnostics as operations on the whole system state (store and
file set): they compute their answers and leave the state as given —
modelled from the spec, which declares them read-only with no load side
effects. -/
def runDiagnostics (s : Store) (files : List FileDescriptor) :
    (Bool × List (ColName × List String)) × Store × List FileDescriptor :=
  ((is_all_equal files, inspect_columns files), s, files)

/-! ### Fast bulk-copy path versus per-row path -/

/-- Insert a single row at the end of an existing table (one `INSERT`
statement). -/
def insertRow (s : Store) (name : String) (r : List Value) : Store :=
  match getTable s name with
  | some t => setTable s name ⟨t.schema, t.rows ++ [r]⟩
  | none => s

/-- Modelled from the spec: the slow load path (`DataFrame.to_sql` with
`if_exists` replace) — drop and recreate the table, then insert the
dataframe's rows one statement at a time. -/
def to_sql_slow (s : Store) (name : String) (df : Table) : Store :=
  df.rows.foldl (fun acc r => insertRow acc name r) (setTable s name ⟨df.schema, []⟩)

/-- Modelled from the spec: the fast bulk-copy path (`pd_to_psql` /
`pd_to_mysql` with `if_exists` replace) — drop and recreate the table,
then stream all rows through the store's bulk-copy protocol. -/
def pd_to_psql (s : Store) (name : String) (df : Table) : Store :=
  setTable s name ⟨df.schema, df.rows⟩

/-! ### Pipeline lemmas -/

theorem flatten_chunksGo {α : Type} (n : Nat) :
    ∀ (xs cur : List α) (k : Nat), (chunksGo n xs cur k).flatten = cur.reverse ++ xs := by
  intro xs
  induction xs with
  | nil =>
    intro cur k
    by_cases h : cur.isEmpty
    · simp [chunksGo, h, List.isEmpty_iff.1 h]
    · simp [chunksGo, h]
  | cons x xs ih =>
    intro cur k
    cases k with
    | zero => simp [chunksGo, ih]
    | succ k => simp [chunksGo, ih, List.reverse_cons]

theorem flatten_chunksOf {α : Type} (n : Nat) (l : List α) :
    (chunksOf n l).flatten = l := by
  cases l with
  | nil => rfl
  | cons x xs => simp [chunksOf, flatten_chunksGo]

theorem transformChunks_id :
    ∀ (i : Nat) (chs : List (List (List Value))),
      transformChunks idTransform i chs = .ok chs.flatten := by
  intro i chs
  induction chs generalizing i with
  | nil => rfl
  | cons ch chs ih => simp [transformChunks, idTransform, ih]

/-- Without a user transform, the pipeline emits exactly the file's rows
aligned to the canonical schema, whatever the chunk size. -/
theorem processFile_id (canon : List ColName) (csize : Nat) (f : FileDescriptor) :
    processFile canon idTransform csize f = .ok (f.rows.map (alignRow canon f.cols)) := by
  simp [processFile, transformChunks_id, flatten_chunksOf]

/-- A transform that distributes over concatenation maps `[]` to `[]`. -/
theorem split_nil {tf : List (List Value) → List (List Value)}
    (hsplit : ∀ xs ys, tf (xs ++ ys) = tf xs ++ tf ys) : tf [] = [] := by
  have h := hsplit [] []
  simp only [List.append_nil] at h
  have hlen := congrArg List.length h
  rw [List.length_append] at hlen
  have : (tf []).length = 0 := by omega
  exact List.eq_nil_of_length_eq_zero this

theorem flatten_map_chunksGo {tf : List (List Value) → List (List Value)}
    (hsplit : ∀ xs ys, tf (xs ++ ys) = tf xs ++ tf ys) (n : Nat) :
    ∀ (xs cur : List (List Value)) (k : Nat),
      ((chunksGo n xs cur k).map tf).flatten = tf (cur.reverse ++ xs) := by
  intro xs
  induction xs with
  | nil =>
    intro cur k
    by_cases h : cur.isEmpty
    · simp [chunksGo, h, List.isEmpty_iff.1 h, split_nil hsplit]
    · simp [chunksGo, h]
  | cons x xs ih =>
    intro cur k
    cases k with
    | zero =>
      have : cur.reverse ++ x :: xs = cur.reverse ++ ([x].reverse ++ xs) := by simp
      simp [chunksGo, ih, this, hsplit]
    | succ k =>
      have : (x :: cur).reverse ++ xs = cur.reverse ++ x :: xs := by
        simp [List.reverse_cons]
      simp [chunksGo, ih, this]

theorem flatten_map_chunksOf {tf : List (List Value) → List (List Value)}
    (hsplit : ∀ xs ys, tf (xs ++ ys) = tf xs ++ tf ys) (n : Nat)
    (l : List (List Value)) :
    ((chunksOf n l).map tf).flatten = tf l := by
  cases l with
  | nil => simp [chunksOf, split_nil hsplit]
  | cons x xs => simpa using flatten_map_chunksGo hsplit n xs [x] n

theorem transformChunks_total (tf : List (List Value) → List (List Value)) :
    ∀ (i : Nat) (chs : List (List (List Value))),
      transformChunks (fun ch => some (tf ch)) i chs = .ok ((chs.map tf).flatten) := by
  intro i chs
  induction chs generalizing i with
  | nil => rfl
  | cons ch chs ih => simp [transformChunks, ih]

/-! ### Store lemmas -/

theorem getTable_setTable_self (s : Store) (n : String) (t : Table) :
    getTable (setTable s n t) n = some t := by
  induction s with
  | nil => simp [setTable, getTable]
  | cons p rest ih =>
    obtain ⟨m, u⟩ := p
    by_cases h : m = n
    · simp [setTable, h, getTable]
    · simp [setTable, h, getTable, ih]

theorem setTable_setTable (s : Store) (n : String) (t u : Table) :
    setTable (setTable s n t) n u = setTable s n u := by
  induction s with
  | nil => simp [setTable]
  | cons p rest ih =>
    obtain ⟨m, v⟩ := p
    by_cases h : m = n
    · simp [setTable, h]
    · simp [setTable, h, ih]

/-! ### Orchestrator lemmas -/

/-- The rows a file contributes to the table: all of its processed rows
when its load commits, none when it fails (per-file rollback). -/
def committedRows (canon : List ColName) (t : Transform) (csize : Nat)
    (f : FileDescriptor) : List (List Value) :=
  match processFile canon t csize f with
  | .ok rs => rs
  | .error _ => []

/-- The outcome the report records for one file. -/
def fileOutcome (canon : List ColName) (t : Transform) (csize : Nat)
    (f : FileDescriptor) : FileOutcome :=
  match processFile canon t csize f with
  | .ok rs => .committed rs.length
  | .error e => .failed e

theorem loadFiles_eq (canon : List ColName) (t : Transform) (csize : Nat) :
    ∀ files : List FileDescriptor,
      loadFiles canon t csize files
        = ((files.map (committedRows canon t csize)).flatten,
           files.map (fun f => (f.path, fileOutcome canon t csize f))) := by
  intro files
  induction files with
  | nil => rfl
  | cons f fs ih =>
    simp only [loadFiles, ih, List.map_cons, List.flatten_cons]
    cases h : processFile canon t csize f with
    | ok rs => simp [committedRows, fileOutcome, h]
    | error e => simp [committedRows, fileOutcome, h]

/-! ### All-files-equal lemma -/

theorem unionCols_all_equal {files : List FileDescriptor} {L : List ColName}
    (hne : files ≠ []) (hall : ∀ g ∈ files, g.cols = L) (hnd : L.Nodup) :
    unionCols files = L := by
  cases files with
  | nil => exact absurd rfl hne
  | cons f fs =>
    have hf : f.cols = L := hall f (List.mem_cons_self _ _)
    have hsub : ∀ x ∈ ((fs.map (·.cols)).flatten), x ∈ L := by
      intro x hx
      rcases List.mem_flatten.1 hx with ⟨l, hl, hxl⟩
      rcases List.mem_map.1 hl with ⟨g, hg, rfl⟩
      rw [hall g (List.mem_cons_of_mem _ hg)] at hxl
      exact hxl
    calc unionCols (f :: fs)
        = dedupFirst (L ++ (fs.map (·.cols)).flatten) := by
          simp [unionCols, hf]
      _ = dedupFirst L := dedupFirst_append_subset _ _ hsub
      _ = L := dedupFirst_eq_self hnd

/-! ### Concrete fixtures used to instantiate the theorems -/

/-- A file with columns `id, name` and two rows. -/
def fA : FileDescriptor :=
  ⟨"a.csv", ["id", "name"], [[some "1", some "alice"], [some "2", some "bob"]]⟩

/-- A file with a surplus column `extra`. -/
def fB : FileDescriptor :=
  ⟨"b.csv", ["id", "name", "extra"], [[some "3", some "carol", some "x"]]⟩

/-- A file column-identical to `fA`. -/
def fC : FileDescriptor :=
  ⟨"c.csv", ["id", "name"], [[some "9", some "dora"]]⟩

/-- The mismatching pair of the spec scenario: `A(id,name)`,
`B(id,name,extra)`. -/
def filesW : List FileDescriptor := [fA, fB]

/-- A single-column file. -/
def fA1 : FileDescriptor := ⟨"a.csv", ["id"], [[some "7"], [some "8"]]⟩

/-- A single-column file whose third row carries the poison value. -/
def fB1 : FileDescriptor := ⟨"b.csv", ["id"], [[some "1"], [some "2"], [some "BOOM"]]⟩

/-- A transform that raises exactly on chunks containing the poison
value `BOOM`. -/
def tBoom : Transform := fun ch =>
  if ch.any (fun r => r.any (fun v => v = some "BOOM")) then none else some ch

/-- A chunk-boundary-independent transform: append a constant field to
every row. -/
def tfW : List (List Value) → List (List Value) :=
  List.map (fun r => r ++ [some "q"])

/-! ### Claims -/

/-- C1: under the `union` reconciliation policy the canonical schema is
the union of all files' columns ordered by first appearance in file
order; no file's column is silently dropped; and a file lacking a
canonical column contributes the null sentinel in exactly the columns it
lacks, in every row. -/
theorem union_policy_null_fill
    (files : List FileDescriptor) (f : FileDescriptor) (hf : f ∈ files) :
    (∀ c, c ∈ unionCols files ↔ ∃ g ∈ files, c ∈ g.cols)
    ∧ (∀ c ∈ f.cols, c ∈ unionCols files)
    ∧ (∀ row ∈ f.rows, row.length = f.cols.length → (∀ v ∈ row, v.isSome) →
        ∀ i, i < (unionCols files).length →
          ((alignRow (unionCols files) f.cols row).getD i (some "") = none
            ↔ (unionCols files).getD i "" ∉ f.cols)) := by
  refine ⟨fun c => mem_unionCols, fun c hc => mem_unionCols.2 ⟨f, hf, hc⟩, ?_⟩
  intro row _ hlen hsome i hi
  have hmap : (alignRow (unionCols files) f.cols row).length = (unionCols files).length := by
    simp [alignRow]
  rw [List.getD_eq_getElem _ _ (hmap ▸ hi), List.getD_eq_getElem _ _ hi]
  simp only [alignRow, List.getElem_map]
  constructor
  · intro hnone hc
    have hs := colValue_isSome hc hlen hsome
    rw [hnone] at hs
    simp at hs
  · intro hc
    exact colValue_not_mem hc

/-- Witness for C1 at the spec scenario `A(id,name)`, `B(id,name,extra)`:
the canonical schema gains `extra` and `A`'s first row is null exactly in
position 2 (the `extra` column). -/
theorem union_policy_null_fill_witness :
    unionCols filesW = ["id", "name", "extra"]
    ∧ ((alignRow (unionCols filesW) fA.cols [some "1", some "alice"]).getD 2 (some "") = none
        ↔ (unionCols filesW).getD 2 "" ∉ fA.cols) := by
  refine ⟨by decide, ?_⟩
  exact (union_policy_null_fill filesW fA (by decide)).2.2
    [some "1", some "alice"] (by decide) (by decide) (by decide) 2 (by decide)

/-- C2: under the `exact` policy, any divergence of column sets or order
fails with a `SchemaMismatchError` whose diff lists every deviating
file (not only the first one found), and the load performs no work:
the store is returned exactly as given. -/
theorem exact_policy_full_diff
    (s : Store) (files : List FileDescriptor) (tbl : String)
    (pol : ExistencePolicy) (t : Transform) (csize : Nat)
    (f g : FileDescriptor) (hhead : files.head? = some f)
    (hg : g ∈ files) (hne : g.cols ≠ f.cols) :
    reconcileExact files = .error (.schemaMismatch (mismatchDiffs files))
    ∧ (∀ h ∈ files, h.cols ≠ f.cols → fileDiff f.cols h ∈ mismatchDiffs files)
    ∧ loadExact s files tbl pol t csize
        = (s, .error (.schemaMismatch (mismatchDiffs files))) := by
  cases files with
  | nil => cases hhead
  | cons f0 fs =>
    have hf0 : f0 = f := by simpa [List.head?] using hhead
    subst hf0
    have hgfs : g ∈ fs := by
      rcases List.mem_cons.1 hg with rfl | h
      · exact absurd rfl hne
      · exact h
    have hcond : ¬ (fs.all (fun g => g.cols = f0.cols) = true) := by
      intro hall
      exact hne (by simpa using (List.all_eq_true.1 hall) g hgfs)
    have hrec : reconcileExact (f0 :: fs)
        = .error (.schemaMismatch (mismatchDiffs (f0 :: fs))) := by
      simp only [reconcileExact]
      rw [if_neg (by simpa using hcond)]
    refine ⟨hrec, ?_, ?_⟩
    · intro h hh hhne
      simp only [mismatchDiffs]
      exact List.mem_map.2 ⟨h, List.mem_filter.2 ⟨hh, by simpa using hhne⟩, rfl⟩
    · simp only [loadExact, hrec]

/-- Witness for C2 at the spec scenario: `exact` on `A(id,name)`,
`B(id,name,extra)` fails naming `extra` as `B`'s surplus column, and the
store is untouched. -/
theorem exact_policy_full_diff_witness :
    mismatchDiffs filesW = [⟨"b.csv", ["extra"], [], false⟩]
    ∧ reconcileExact filesW = .error (.schemaMismatch (mismatchDiffs filesW))
    ∧ fileDiff fA.cols fB ∈ mismatchDiffs filesW
    ∧ loadExact [] filesW "benchmark" .replace idTransform 0
        = ([], .error (.schemaMismatch (mismatchDiffs filesW))) := by
  have h := exact_policy_full_diff [] filesW "benchmark" .replace idTransform 0
    fA fB rfl (by decide) (by decide)
  exact ⟨by decide, h.1, h.2.1 fB (by decide) (by decide), h.2.2⟩

/-- C3: loads commit with one transaction boundary per source file — the
table receives exactly the concatenation of each file's
committed-or-nothing contribution, a file failing part-way contributes
zero rows while earlier files' rows remain, and the report records every
file's outcome, a transform failure with its error kind and chunk
index. -/
theorem per_file_transaction_report
    (canon : List ColName) (t : Transform) (csize : Nat)
    (files : List FileDescriptor) :
    (loadFiles canon t csize files).1
      = (files.map (committedRows canon t csize)).flatten
    ∧ (loadFiles canon t csize files).2
      = files.map (fun f => (f.path, fileOutcome canon t csize f))
    ∧ (∀ f ∈ files, ∀ i,
        processFile canon t csize f = .error (.transformError f.path i) →
          committedRows canon t csize f = []
          ∧ (f.path, FileOutcome.failed (.transformError f.path i))
              ∈ (loadFiles canon t csize files).2) := by
  refine ⟨(loadFiles_eq canon t csize files).symm ▸ rfl, ?_, ?_⟩
  · rw [loadFiles_eq]
  · intro f hf i herr
    constructor
    · simp [committedRows, herr]
    · rw [loadFiles_eq]
      exact List.mem_map.2 ⟨f, hf, by simp [fileOutcome, herr]⟩

/-- Witness for C3 at the spec scenario: the transform raises on file
`B`'s third chunk (chunk size 1); file `A` is fully committed, `B`
commits zero rows, and the report lists `B` as failed with a
`TransformError` at chunk index 2. -/
theorem per_file_transaction_report_witness :
    (loadFiles ["id"] tBoom 0 [fA1, fB1]).1 = [[some "7"], [some "8"]]
    ∧ committedRows ["id"] tBoom 0 fB1 = []
    ∧ ("b.csv", FileOutcome.failed (.transformError "b.csv" 2))
        ∈ (loadFiles ["id"] tBoom 0 [fA1, fB1]).2 := by
  have h := per_file_transaction_report ["id"] tBoom 0 [fA1, fB1]
  have hb := h.2.2 fB1 (by decide) 2 rfl
  exact ⟨rfl, hb.1, hb.2⟩

/-- C4: round-trip — loading files with the `union` policy into a fresh
table stores exactly the canonically aligned rows of every file; the
total row count is the sum of the per-file row counts, and every field
whose column exists in the row's source file reads back as the source
value. -/
theorem union_roundtrip
    (s : Store) (files : List FileDescriptor) (tbl : String) (csize : Nat)
    (hfresh : getTable s tbl = none) :
    getTable (load s files tbl .fail idTransform csize).1 tbl
      = some ⟨unionCols files,
          (files.map (fun f => f.rows.map (alignRow (unionCols files) f.cols))).flatten⟩
    ∧ ((files.map (fun f => f.rows.map (alignRow (unionCols files) f.cols))).flatten).length
        = (files.map (fun f => f.rows.length)).sum
    ∧ (∀ f ∈ files, ∀ r ∈ f.rows, ∀ c ∈ f.cols,
        colValue (unionCols files) (alignRow (unionCols files) f.cols r) c
          = colValue f.cols r c) := by
  refine ⟨?_, ?_, ?_⟩
  · have hrows : (loadFiles (unionCols files) idTransform csize files).1
        = (files.map (fun f => f.rows.map (alignRow (unionCols files) f.cols))).flatten := by
      rw [loadFiles_eq]
      dsimp only
      congr 1
      exact List.map_congr_left (fun f _ => by
        simp [committedRows, processFile_id])
    simp only [load, hfresh, hrows]
    exact getTable_setTable_self _ _ _
  · rw [List.length_flatten, List.map_map]
    congr 1
    exact List.map_congr_left (fun f _ => by simp)
  · intro f hf r _ c hc
    exact colValue_map (nodup_unionCols files) (mem_unionCols.2 ⟨f, hf, hc⟩)

/-- Witness for C4 on the two-file scenario: three rows total (2 + 1),
and `A`'s first row reads back its `name` field unchanged. -/
theorem union_roundtrip_witness :
    getTable (load [] filesW "benchmark" .fail idTransform 0).1 "benchmark"
      = some ⟨unionCols filesW,
          (filesW.map (fun f => f.rows.map (alignRow (unionCols filesW) f.cols))).flatten⟩
    ∧ ((filesW.map (fun f => f.rows.map (alignRow (unionCols filesW) f.cols))).flatten).length
        = (filesW.map (fun f => f.rows.length)).sum
    ∧ colValue (unionCols filesW)
        (alignRow (unionCols filesW) fA.cols [some "1", some "alice"]) "name"
      = colValue fA.cols [some "1", some "alice"] "name" := by
  have h := union_roundtrip [] filesW "benchmark" 0 rfl
  exact ⟨h.1, h.2.1, h.2.2 fA (by decide) [some "1", some "alice"] (by decide) "name" (by decide)⟩

/-- C5: `load` with existence policy `replace` is idempotent — running it
twice on the same inputs leaves the store, and in particular the target
table, exactly as one run does. -/
theorem replace_idempotent
    (s : Store) (files : List FileDescriptor) (tbl : String)
    (t : Transform) (csize : Nat) :
    (load (load s files tbl .replace t csize).1 files tbl .replace t csize).1
      = (load s files tbl .replace t csize).1
    ∧ getTable (load (load s files tbl .replace t csize).1 files tbl .replace t csize).1 tbl
      = getTable (load s files tbl .replace t csize).1 tbl := by
  have h : (load (load s files tbl .replace t csize).1 files tbl .replace t csize).1
      = (load s files tbl .replace t csize).1 := by
    simp [load, setTable_setTable]
  exact ⟨h, by rw [h]⟩

/-- C6: chunking invariance — with a chunk-boundary-independent transform
(one that distributes over chunk concatenation), the pipeline's output
for a file is the transform applied once to the whole aligned file,
identically for every positive chunk size, hence identical to a single
chunk covering the whole file. -/
theorem chunking_invariance
    (canon : List ColName) (tf : List (List Value) → List (List Value))
    (hsplit : ∀ xs ys, tf (xs ++ ys) = tf xs ++ tf ys)
    (csize csize' : Nat) (f : FileDescriptor) :
    processFile canon (fun ch => some (tf ch)) csize f
      = .ok (tf (f.rows.map (alignRow canon f.cols)))
    ∧ processFile canon (fun ch => some (tf ch)) csize f
      = processFile canon (fun ch => some (tf ch)) csize' f := by
  have key : ∀ n, processFile canon (fun ch => some (tf ch)) n f
      = .ok (tf (f.rows.map (alignRow canon f.cols))) := by
    intro n
    simp [processFile, transformChunks_total, flatten_map_chunksOf hsplit]
  exact ⟨key csize, (key csize).trans (key csize').symm⟩

/-- Witness for C6: appending a constant field row-wise is
chunk-boundary-independent; chunk sizes 1 and 10 agree on a three-row
file and equal the single-chunk result. -/
theorem chunking_invariance_witness :
    processFile ["id"] (fun ch => some (tfW ch)) 0 fB1
      = .ok (tfW (fB1.rows.map (alignRow ["id"] fB1.cols)))
    ∧ processFile ["id"] (fun ch => some (tfW ch)) 0 fB1
      = processFile ["id"] (fun ch => some (tfW ch)) 9 fB1 :=
  chunking_invariance ["id"] tfW (fun xs ys => List.map_append _ xs ys) 0 9 fB1

/-- C7: a load with existence policy `fail` against an existing target
table aborts with `TableExistsError` and writes nothing: the store is
returned exactly as given. -/
theorem fail_policy_aborts
    (s : Store) (files : List FileDescriptor) (tbl : String)
    (t : Transform) (csize : Nat) (u : Table)
    (hex : getTable s tbl = some u) :
    load s files tbl .fail t csize = (s, .error .tableExists) := by
  simp [load, hex]

/-- Witness for C7: a store already holding `benchmark` is returned
unchanged with `TableExistsError`. -/
theorem fail_policy_aborts_witness :
    load [("benchmark", (⟨["id"], []⟩ : Table))] filesW "benchmark" .fail idTransform 0
      = ([("benchmark", ⟨["id"], []⟩)], .error .tableExists) :=
  fail_policy_aborts _ filesW "benchmark" idTransform 0 ⟨["id"], []⟩ rfl

/-- C8: when all files expose identical column names and order,
`is_all_equal` returns `true` and the canonical schema equals any single
file's column order. -/
theorem all_equal_canonical
    (files : List FileDescriptor) (f : FileDescriptor) (hf : f ∈ files)
    (hnd : f.cols.Nodup) (hall : ∀ g ∈ files, g.cols = f.cols) :
    is_all_equal files = true ∧ unionCols files = f.cols := by
  constructor
  · cases files with
    | nil => cases hf
    | cons f0 fs =>
      have h0 : f0.cols = f.cols := hall f0 (List.mem_cons_self _ _)
      simp only [is_all_equal]
      exact List.all_eq_true.2 (fun g hg => by
        simp [hall g (List.mem_cons_of_mem _ hg), h0])
  · exact unionCols_all_equal (by rintro rfl; cases hf) hall hnd

/-- Witness for C8: two column-identical files. -/
theorem all_equal_canonical_witness :
    is_all_equal [fA, fC] = true ∧ unionCols [fA, fC] = fA.cols :=
  all_equal_canonical [fA, fC] fA (by decide) (by decide) (by decide)

/-- C9: the diagnostics (`is_all_equal` and the per-column file-membership
inspection) are read-only — running them computes their answers and
leaves the store (every table), and the input file set, exactly
unchanged. -/
theorem diagnostics_no_side_effects (s : Store) (files : List FileDescriptor) :
    (runDiagnostics s files).1.1 = is_all_equal files
    ∧ (runDiagnostics s files).1.2 = inspect_columns files
    ∧ (runDiagnostics s files).2.1 = s
    ∧ (runDiagnostics s files).2.2 = files
    ∧ (∀ n, getTable (runDiagnostics s files).2.1 n = getTable s n) :=
  ⟨rfl, rfl, rfl, rfl, fun _ => rfl⟩

/-- C10: the fast bulk-copy load path and the slow per-row load path
(both replacing the target table) produce identical stores — the two
paths are content-equivalent. -/
theorem bulk_copy_refines_row_path (s : Store) (name : String) (df : Table) :
    pd_to_psql s name df = to_sql_slow s name df
    ∧ getTable (pd_to_psql s name df) name = some ⟨df.schema, df.rows⟩ := by
  have haux : ∀ (rows : List (List Value)) (s0 : Store) (sch : List ColName)
      (acc : List (List Value)),
      rows.foldl (fun a r => insertRow a name r) (setTable s0 name ⟨sch, acc⟩)
        = setTable s0 name ⟨sch, acc ++ rows⟩ := by
    intro rows
    induction rows with
    | nil => intro s0 sch acc; simp
    | cons r rest ih =>
      intro s0 sch acc
      have hstep : insertRow (setTable s0 name ⟨sch, acc⟩) name r
          = setTable s0 name ⟨sch, acc ++ [r]⟩ := by
        simp [insertRow, getTable_setTable_self, setTable_setTable]
      simp only [List.foldl_cons, hstep, ih]
      simp
  constructor
  · have h := haux df.rows s df.schema []
    simp only [List.nil_append] at h
    simp [pd_to_psql, to_sql_slow, h]
  · exact getTable_setTable_self _ _ _

end D6t
